import Mathlib

/-!
Verification of the Test Integration Runner (TIR), `test-util/tir.js`.

JavaScript strings are modelled as lists of characters (`JStr`); the ASCII
case mappings `toLocaleLowerCase` / `toLocaleUpperCase` are modelled by the
core `Char.toLower` / `Char.toUpper`, which perform exactly the basic-latin
letter mapping. `path.join` is modelled for the segment shapes TIR uses
(non-empty segments without trailing separators) as separator-interposed
concatenation.
-/

/-- A JavaScript string, as its list of characters. -/
abbrev JStr := List Char

/-- Node `path.join(a, b)` for the argument shapes TIR uses
(non-empty segments, no trailing separators): `a ++ "/" ++ b`. -/
def pjoin (a b : JStr) : JStr := a ++ '/' :: b

/- ### ASCII case-mapping lemmas -/

theorem toNat_ofNat_valid (n : Nat) (h : n < 55296) : (Char.ofNat n).toNat = n := by
  have hv : n.isValidChar := Or.inl h
  rw [Char.ofNat, dif_pos hv]
  simp [Char.ofNatAux, Char.toNat, UInt32.toNat]

theorem char_eq_of_toNat_eq {c d : Char} (h : c.toNat = d.toNat) : c = d := by
  have h2 := congrArg Char.ofNat h
  rwa [Char.ofNat_toNat, Char.ofNat_toNat] at h2

theorem toLower_eq (c : Char) :
    c.toLower = if 65 ≤ c.toNat ∧ c.toNat ≤ 90 then Char.ofNat (c.toNat + 32) else c := rfl

theorem toUpper_eq (c : Char) :
    c.toUpper = if 97 ≤ c.toNat ∧ c.toNat ≤ 122 then Char.ofNat (c.toNat - 32) else c := rfl

theorem toNat_toLower (c : Char) :
    c.toLower.toNat = if 65 ≤ c.toNat ∧ c.toNat ≤ 90 then c.toNat + 32 else c.toNat := by
  rw [toLower_eq]
  by_cases h : 65 ≤ c.toNat ∧ c.toNat ≤ 90
  · rw [if_pos h, if_pos h]
    exact toNat_ofNat_valid _ (by omega)
  · rw [if_neg h, if_neg h]

theorem toNat_toUpper (c : Char) :
    c.toUpper.toNat = if 97 ≤ c.toNat ∧ c.toNat ≤ 122 then c.toNat - 32 else c.toNat := by
  rw [toUpper_eq]
  by_cases h : 97 ≤ c.toNat ∧ c.toNat ≤ 122
  · rw [if_pos h, if_pos h]
    exact toNat_ofNat_valid _ (by omega)
  · rw [if_neg h, if_neg h]

theorem toLower_toLower (c : Char) : c.toLower.toLower = c.toLower := by
  apply char_eq_of_toNat_eq
  rw [toNat_toLower c.toLower, toNat_toLower c]
  by_cases h : 65 ≤ c.toNat ∧ c.toNat ≤ 90
  · rw [if_pos h,
      if_neg (show ¬(65 ≤ c.toNat + 32 ∧ c.toNat + 32 ≤ 90) by omega)]
  · rw [if_neg h, if_neg h]

theorem toLower_toUpper (c : Char) : c.toUpper.toLower = c.toLower := by
  apply char_eq_of_toNat_eq
  rw [toNat_toLower c.toUpper, toNat_toUpper c, toNat_toLower c]
  by_cases h : 97 ≤ c.toNat ∧ c.toNat ≤ 122
  · rw [if_pos h,
      if_pos (show 65 ≤ c.toNat - 32 ∧ c.toNat - 32 ≤ 90 by omega),
      if_neg (show ¬(65 ≤ c.toNat ∧ c.toNat ≤ 90) by omega)]
    omega
  · rw [if_neg h]

/-- Only the 26 upper-case basic-latin letters are changed by `toLower`. -/
theorem toLower_eq_self_of_not_upper {c : Char} (h : ¬ (65 ≤ c.toNat ∧ c.toNat ≤ 90)) :
    c.toLower = c := by
  rw [toLower_eq, if_neg h]

/- ### `createKey` (tir.js lines 56-63) -/

/-- JS `str.split(' ')`: splits at every single space, keeping empty pieces. -/
def splitSp : JStr → List JStr
  | [] => [[]]
  | c :: rest =>
    if c = ' ' then [] :: splitSp rest
    else
      match splitSp rest with
      | [] => [[c]]
      | w :: ws => (c :: w) :: ws

/-- Camel transform of a non-first word:
`word.substr(0, 1).toLocaleUpperCase() + word.toLowerCase().substr(1)`. -/
def camelW (w : JStr) : JStr := (w.take 1).map Char.toUpper ++ (w.map Char.toLower).drop 1

/-- `createKey` from tir.js.  Note that the source's
`parsed.replace(/^[A-Za-z0-9 ]+/g, ' ')` discards its result (JS strings are
immutable and the return value is not assigned), so the `replace` has no
effect on `parsed`; the function is split-on-space followed by camel-case
joining: first word fully lower-cased, every later word with its first
character upper-cased and the rest lower-cased. -/
def createKey (name : JStr) : JStr :=
  match splitSp name with
  | [] => []
  | w :: ws => w.map Char.toLower ++ (ws.map camelW).flatten

theorem splitSp_ne_nil (l : JStr) : splitSp l ≠ [] := by
  cases l with
  | nil => simp [splitSp]
  | cons c rest =>
    by_cases h : c = ' '
    · simp [splitSp, h]
    · simp only [splitSp, if_neg h]
      cases hs : splitSp rest <;> simp

theorem splitSp_flatten (l : JStr) : (splitSp l).flatten = l.filter (fun c => c ≠ ' ') := by
  induction l with
  | nil => simp [splitSp]
  | cons c rest ih =>
    by_cases h : c = ' '
    · subst h
      simp [splitSp, ih]
    · simp only [splitSp, if_neg h]
      cases hs : splitSp rest with
      | nil => exact absurd hs (splitSp_ne_nil rest)
      | cons w ws =>
        rw [hs] at ih
        simp only [List.flatten_cons] at ih
        show (c :: w) ++ ws.flatten = List.filter (fun c => c ≠ ' ') (c :: rest)
        rw [List.filter_cons_of_pos (by simpa using h), ← ih]
        rfl

theorem map_toLower_camelW (w : JStr) :
    (camelW w).map Char.toLower = w.map Char.toLower := by
  cases w with
  | nil => rfl
  | cons c t =>
    show (Char.toUpper c :: t.map Char.toLower).map Char.toLower = _
    simp only [List.map_cons, List.map_map]
    rw [toLower_toUpper]
    congr 1
    exact congrFun (congrArg List.map (funext toLower_toLower)) t

theorem flatten_map_camelW (ws : List JStr) :
    ((ws.map camelW).flatten).map Char.toLower = ws.flatten.map Char.toLower := by
  induction ws with
  | nil => rfl
  | cons w ws ih =>
    simp only [List.map_cons, List.flatten_cons, List.map_append, ih, map_toLower_camelW]

theorem createKey_map_toLower (name : JStr) :
    (createKey name).map Char.toLower = (name.filter (fun c => c ≠ ' ')).map Char.toLower := by
  rw [← splitSp_flatten]
  unfold createKey
  cases hs : splitSp name with
  | nil => exact absurd hs (splitSp_ne_nil name)
  | cons w ws =>
    simp only [List.flatten_cons, List.map_append, flatten_map_camelW, List.map_map]
    congr 1
    exact congrFun (congrArg List.map (funext toLower_toLower)) w

/-- Characters that are not basic-latin letters pass through `createKey`
verbatim: if such a character occurs in the name, it occurs in the key. -/
theorem mem_createKey_of_mem {c : Char} {name : JStr}
    (hc : c.toLower = c) (hup : c.toUpper = c) (hsp : c ≠ ' ') (hmem : c ∈ name) :
    c ∈ createKey name := by
  have h1 : c ∈ (name.filter (fun c => c ≠ ' ')).map Char.toLower := by
    refine List.mem_map.2 ⟨c, List.mem_filter.2 ⟨hmem, by simpa⟩, hc⟩
  rw [← createKey_map_toLower] at h1
  rcases List.mem_map.1 h1 with ⟨d, hd, hdc⟩
  -- `d.toLower = c`; since `c` is fixed by both case maps, `d = c`.
  by_cases hdu : 65 ≤ d.toNat ∧ d.toNat ≤ 90
  · -- d is an upper-case letter, so c = d + 32 is its lower-case form,
    -- whence c.toUpper = d ≠ c unless d = c; but c.toUpper = c.
    have hdn : d.toLower.toNat = d.toNat + 32 := by rw [toNat_toLower, if_pos hdu]
    have hcn : c.toNat = d.toNat + 32 := by rw [← hdc, hdn]
    have hcu : c.toUpper.toNat = c.toNat - 32 := by
      rw [toNat_toUpper, if_pos (by omega)]
    have : c.toUpper.toNat = c.toNat := by rw [hup]
    omega
  · rw [toLower_eq_self_of_not_upper hdu] at hdc
    exact hdc ▸ hd

/- ### JavaScript values and the Constitution Compiler (tir.js lines 79-103) -/

mutual

/-- A JavaScript value as it can appear in a swarm describer: primitives,
`null`, a function (carried as its source text, which is what
`Function.prototype.toString` returns), or a plain object.  Numbers are
modelled as integers (the describers in this repository contain no
fractional numbers). -/
inductive JsVal where
  | str : JStr → JsVal
  | num : Int → JsVal
  | bool : Bool → JsVal
  | null : JsVal
  | fn : JStr → JsVal
  | obj : JsFields → JsVal

/-- The ordered own-property list of a JS object. -/
inductive JsFields where
  | nil : JsFields
  | cons : JStr → JsVal → JsFields → JsFields

end

/-- JS `typeof v === 'object'` — true for plain objects and for `null`. -/
def typeofObject : JsVal → Bool
  | .null => true
  | .obj _ => true
  | _ => false

/-- JS default string conversion `v.toString()` for values reaching the
non-object branch of `createConstitution`: a function stringifies to its
source text, a string to itself (unquoted), a number to its decimal
representation, a boolean to `true`/`false`.  (`null` and objects never
reach this branch — their `typeof` is `'object'`.) -/
def jsToString : JsVal → JStr
  | .str s => s
  | .num n => (toString n).data
  | .bool b => if b then "true".data else "false".data
  | .fn src => src
  | .null => "null".data
  | .obj _ => "[object Object]".data

/-- The characters `JSON.stringify` escapes inside string literals
(control-character escapes omitted; no claim involves them). -/
def escapeStr (s : JStr) : JStr :=
  s.flatMap (fun c => if c = '"' ∨ c = '\\' then '\\' :: c :: [] else [c])

mutual

/-- `JSON.stringify(v)`; `none` models JS `undefined` (the result of
stringifying a bare function). -/
def jsonStringify : JsVal → Option JStr
  | .str s => some ('"' :: escapeStr s ++ '"' :: [])
  | .num n => some (toString n).data
  | .bool b => some (if b then "true".data else "false".data)
  | .null => some "null".data
  | .fn _ => none
  | .obj fs => some ('\x7b' :: List.intercalate (',' :: []) (jsonFieldParts fs) ++ '\x7d' :: [])

/-- The `"key":value` parts of a stringified object; function-valued fields
are dropped, exactly as `JSON.stringify` drops them. -/
def jsonFieldParts : JsFields → List JStr
  | .nil => []
  | .cons k v rest =>
    match jsonStringify v with
    | none => jsonFieldParts rest
    | some sv => ('"' :: escapeStr k ++ '"' :: ':' :: sv) :: jsonFieldParts rest

end

mutual

/-- Modelled from the spec: "serializing function-valued properties as
literal source text and non-function properties as structured literal
data (valid literal syntax for that value)".  The literal rendering of a
value: strings quoted, numbers/booleans/`null` as their literals,
functions as their source text, objects as literals carrying every field. -/
def specLiteral : JsVal → JStr
  | .str s => '"' :: escapeStr s ++ '"' :: []
  | .num n => (toString n).data
  | .bool b => if b then "true".data else "false".data
  | .null => "null".data
  | .fn src => src
  | .obj fs => '\x7b' :: List.intercalate (',' :: []) (specFieldParts fs) ++ '\x7d' :: []

/-- The `"key":value` parts of a spec-side object literal (every field kept). -/
def specFieldParts : JsFields → List JStr
  | .nil => []
  | .cons k v rest => ('"' :: escapeStr k ++ '"' :: ':' :: specLiteral v) :: specFieldParts rest

end

mutual

/-- No function value occurs anywhere inside the value. -/
def noFn : JsVal → Bool
  | .fn _ => false
  | .obj fs => noFnF fs
  | _ => true

/-- No function value occurs anywhere inside the field list. -/
def noFnF : JsFields → Bool
  | .nil => true
  | .cons _ v rest => noFn v && noFnF rest

end

/-- One property's serialized text in `createConstitution` (tir.js 89-93):
`typeof v === 'object' ? JSON.stringify(v) : v.toString()`. -/
def serializeProp (v : JsVal) : JStr :=
  if typeofObject v then (jsonStringify v).getD [] else jsToString v

/-- The formatting options of `createConstitution`. -/
structure ConstOpts where
  nl : JStr
  semi : JStr
  tab : JStr

/-- `Object.assign({nl: '\n', semi: ';', tab: '  '}, options)` with no
`options` supplied — TIR always calls `createConstitution` with two
arguments. -/
def defaultOpts : ConstOpts := ⟨'\n' :: [], ';' :: [], ' ' :: ' ' :: []⟩

/-- One property line fragment: `opts.nl + opts.tab + prop + ': ' + text`. -/
def fieldText (o : ConstOpts) (prop : JStr) (v : JsVal) : JStr :=
  o.nl ++ o.tab ++ prop ++ ':' :: ' ' :: serializeProp v

/-- The property fragments of one swarm, in property order. -/
def fieldTexts (o : ConstOpts) : JsFields → List JStr
  | .nil => []
  | .cons k v rest => fieldText o k v :: fieldTexts o rest

/-- One `$$.swarms.describe('name', { ... });` registration call. -/
def swarmLine (o : ConstOpts) (name : JStr) (fs : JsFields) : JStr :=
  "$$.swarms.describe('".data ++ name ++ "', \x7b".data
    ++ List.intercalate (',' :: []) (fieldTexts o fs)
    ++ o.nl ++ "\x7d)".data ++ o.semi

/-- The generated constitution source: one registration call per swarm,
joined by `opts.nl` (tir.js lines 86-101). -/
def constitutionText (o : ConstOpts) (describer : List (JStr × JsFields)) : JStr :=
  List.intercalate o.nl (describer.map (fun p => swarmLine o p.1 p.2))

/- ### Workspace paths and the domain configuration store (tir.js lines 105-135) -/

/-- The behaviour declaration for a domain: either a path string (used
verbatim) or an in-memory describer mapping swarm name to properties. -/
inductive Constitution where
  | pathStr : JStr → Constitution
  | describer : List (JStr × JsFields) → Constitution

/-- The domain descriptor stored by `addDomain` (tir.js lines 122-135). -/
structure DomainConfig where
  name : JStr
  agents : List JStr
  constitution : Constitution
  workspace : JStr
  conf : JStr
  inbound : JStr
  outbound : JStr

/-- The descriptor built by `addDomain`:
`workspace = path.join(rootFolder, 'nodes', createKey(domain))` with
`conf`, `inbound`, `outbound` children. -/
def mkDomainConfig (root name : JStr) (agents : List JStr) (constitution : Constitution) :
    DomainConfig :=
  let workspace := pjoin (pjoin root ('n' :: 'o' :: 'd' :: 'e' :: 's' :: [])) (createKey name)
  { name := name
    agents := agents
    constitution := constitution
    workspace := workspace
    conf := pjoin workspace ('c' :: 'o' :: 'n' :: 'f' :: [])
    inbound := pjoin workspace ('i' :: 'n' :: 'b' :: 'o' :: 'u' :: 'n' :: 'd' :: [])
    outbound := pjoin workspace ('o' :: 'u' :: 't' :: 'b' :: 'o' :: 'u' :: 'n' :: 'd' :: []) }

/-- The mutable state of one `Tir` runner instance. -/
structure TirState where
  domainConfigs : List (JStr × DomainConfig)
  rootFolder : JStr
  testerNode : Option Nat

/-- JS `domainConfigs[domain] = domainConfig`: overwrite in place if the key
exists (keeping its position — JS objects preserve insertion order for
string keys), append otherwise. -/
def upsert (k : JStr) (v : DomainConfig) : List (JStr × DomainConfig) → List (JStr × DomainConfig)
  | [] => [(k, v)]
  | (k', v') :: rest => if k = k' then (k, v) :: rest else (k', v') :: upsert k v rest

/-- `addDomain` (tir.js lines 122-135): stores the derived descriptor, fluently. -/
def addDomain (st : TirState) (name : JStr) (agents : List JStr)
    (constitution : Constitution) : TirState :=
  { st with
    domainConfigs :=
      upsert name (mkDomainConfig st.rootFolder name agents constitution) st.domainConfigs }

/-- `domainConfigs[domain]`, the descriptor lookup used by `interact`. -/
def lookupDomain (st : TirState) (d : JStr) : Option DomainConfig :=
  st.domainConfigs.lookup d

/-- `Object.keys(domainConfigs)`. -/
def knownDomains (st : TirState) : List JStr :=
  st.domainConfigs.map Prod.fst

/- ### C2: workspace-path distinctness -/

theorem workspace_eq_iff {root n1 n2 : JStr} {a1 a2 : List JStr} {c1 c2 : Constitution} :
    (mkDomainConfig root n1 a1 c1).workspace = (mkDomainConfig root n2 a2 c2).workspace ↔
      createKey n1 = createKey n2 := by
  constructor
  · intro h
    simpa [mkDomainConfig, pjoin] using h
  · intro h
    simp [mkDomainConfig, pjoin, h]

/-- C2: the claim states that for distinct domain names added to one runner
the derived workspace paths are distinct (`createKey` injective on them).
This is false: `createKey` case-folds, so e.g. the distinct names `"A"` and
`"a"` both normalize to `"a"` and receive the same workspace path. -/
theorem C2_counterexample :
    ('A' :: []) ≠ ('a' :: []) ∧
      (lookupDomain
          (addDomain (addDomain ⟨[], [], none⟩ ('A' :: []) [] (Constitution.pathStr []))
            ('a' :: []) [] (Constitution.pathStr []))
          ('A' :: [])).map DomainConfig.workspace =
        (lookupDomain
          (addDomain (addDomain ⟨[], [], none⟩ ('A' :: []) [] (Constitution.pathStr []))
            ('a' :: []) [] (Constitution.pathStr []))
          ('a' :: [])).map DomainConfig.workspace := by
  constructor
  · decide
  · rfl

/-- C2 (amended): two domain names derive the same workspace path exactly
when `createKey` sends them to the same key; `createKey` is not injective
(names differing only in letter case collide), so path distinctness holds
only up to key distinctness, not for all pairs of distinct names. -/
theorem C2_workspace_distinct_iff_key_distinct (root n1 n2 : JStr)
    (a1 a2 : List JStr) (c1 c2 : Constitution) :
    (mkDomainConfig root n1 a1 c1).workspace ≠ (mkDomainConfig root n2 a2 c2).workspace ↔
      createKey n1 ≠ createKey n2 :=
  not_congr workspace_eq_iff

/- ### C10: `createKey` never removes or escapes characters -/

/-- C10: `createKey` never removes or escapes non-space characters — the key
is exactly the name with spaces removed and per-character case changes
(first conjunct), so every non-space character survives up to case; in
particular a path separator `'/'` in a domain name survives verbatim into
the key and hence into the derived workspace path (second conjunct). -/
theorem C10_createKey_preserves_chars :
    (∀ name : JStr,
        (createKey name).map Char.toLower = (name.filter (fun c => c ≠ ' ')).map Char.toLower) ∧
      (∀ root name agents c, '/' ∈ name →
        '/' ∈ pjoin (pjoin root ('n' :: 'o' :: 'd' :: 'e' :: 's' :: [])) (createKey name) ∧
          '/' ∈ (mkDomainConfig root name agents c).workspace ∧ '/' ∈ createKey name) := by
  refine ⟨createKey_map_toLower, fun root name agents c hmem => ?_⟩
  have hkey : '/' ∈ createKey name :=
    mem_createKey_of_mem (by decide) (by decide) (by decide) hmem
  refine ⟨?_, ?_, hkey⟩
  · simp [pjoin]
  · simp [mkDomainConfig, pjoin]

/-- C10 witness: the domain name `"a/b"` keeps its separator in the derived key. -/
theorem C10_witness :
    (createKey ('a' :: '/' :: 'b' :: [])).map Char.toLower =
        ((('a' :: '/' :: 'b' :: []) : JStr).filter (fun c => c ≠ ' ')).map Char.toLower ∧
      '/' ∈ (mkDomainConfig [] ('a' :: '/' :: 'b' :: []) [] (Constitution.pathStr [])).workspace := by
  have h := C10_createKey_preserves_chars
  refine ⟨?_, (h.2 [] ('a' :: '/' :: 'b' :: []) [] (Constitution.pathStr []) (by decide)).2.1⟩
  exact h.1 ('a' :: '/' :: 'b' :: [])

/- ### Effects: the observable side effects of a runner call -/

/-- One observable side effect: filesystem operations, global-ledger
(`$$.blockchain`) transaction steps, per-domain ledger handler steps
(tagged by the handler's `conf` path), process spawning/killing, and
process exit. -/
inductive Effect where
  | startDB : JStr → Effect
  | mkdir : JStr → Effect
  | mkdirTolerant : JStr → Effect
  | writeFile : JStr → JStr → Effect
  | gBegin : Effect
  | gLookup : JStr → JStr → Effect
  | gInit : JStr → JStr → Effect
  | gSetWorkspace : JStr → Effect
  | gSetConstitution : JStr → Effect
  | gAddLocalInterface : JStr → JStr → Effect
  | gAdd : Effect
  | gCommit : Effect
  | dbCreateHandler : JStr → Effect
  | dbBegin : JStr → Effect
  | dbLookup : JStr → JStr → JStr → Effect
  | dbAdd : JStr → JStr → JStr → Effect
  | dbCommit : JStr → Effect
  | spawn : JStr → List JStr → Effect
  | kill : Nat → Effect
  | rmTree : JStr → Effect
  | exitProc : Int → Effect

/-- The constitution artifact referenced for a domain: the supplied path
verbatim when the declaration is a string, else the generated file. -/
def constitutionFile (dc : DomainConfig) : JStr :=
  match dc.constitution with
  | .pathStr f => f
  | .describer _ => pjoin dc.workspace ('c' :: 'o' :: 'n' :: 's' :: 't' :: 'i' :: 't' :: 'u' :: 't' :: 'i' :: 'o' :: 'n' :: '.' :: 'j' :: 's' :: [])

/-- Agent provisioning (tir.js lines 211-217): one transaction per agent —
begin, lookup `("Agent", name)`, add, commit — in declaration order, all on
the per-domain handler rooted at `conf`. -/
def agentOps (conf : JStr) (agents : List JStr) : List Effect :=
  agents.flatMap (fun a =>
    [Effect.dbBegin conf,
     Effect.dbLookup conf ('A' :: 'g' :: 'e' :: 'n' :: 't' :: []) a,
     Effect.dbAdd conf ('A' :: 'g' :: 'e' :: 'n' :: 't' :: []) a,
     Effect.dbCommit conf])

/-- `buildDomainConfiguration` (tir.js lines 184-219), as its effect trace:
make the workspace directory, materialize the constitution if it was given
in memory, register the domain in one global-ledger transaction, then, if
any agents are declared, open the per-domain handler and register each
agent in its own transaction. -/
def buildDomainConfiguration (dc : DomainConfig) : List Effect :=
  Effect.mkdir dc.workspace
    :: ((match dc.constitution with
        | .pathStr _ => []
        | .describer d =>
          [Effect.writeFile (constitutionFile dc) (constitutionText defaultOpts d)])
      ++ [Effect.gBegin,
          Effect.gLookup ('D' :: 'o' :: 'm' :: 'a' :: 'i' :: 'n' :: 'R' :: 'e' :: 'f' :: 'e' :: 'r' :: 'e' :: 'n' :: 'c' :: 'e' :: []) dc.name,
          Effect.gInit ('s' :: 'y' :: 's' :: 't' :: 'e' :: 'm' :: []) dc.name,
          Effect.gSetWorkspace dc.workspace,
          Effect.gSetConstitution (constitutionFile dc),
          Effect.gAddLocalInterface ('l' :: 'o' :: 'c' :: 'a' :: 'l' :: []) dc.inbound,
          Effect.gAdd, Effect.gCommit]
      ++ (if dc.agents.isEmpty then []
          else Effect.dbCreateHandler dc.conf :: agentOps dc.conf dc.agents))

/-- `launch` (tir.js lines 144-179); `pid` is the id the OS assigns to the
spawned runtime process.  The guard throws before any side effect when a
node is already tracked; otherwise the pskdb is started on `<root>/conf`,
`<root>/nodes` is created, every stored domain is provisioned in
registration order, and the runtime process is spawned.  (The watchdog and
settle `setTimeout`s only schedule later callbacks.)  Returns the call's
outcome, the state after the call, and the call's effect trace. -/
def launch (st : TirState) (pid : Nat) : Except JStr Unit × TirState × List Effect :=
  if st.testerNode.isSome then
    (Except.error ('T' :: 'e' :: 's' :: 't' :: ' ' :: 'n' :: 'o' :: 'd' :: 'e' :: ' ' :: 'a' :: 'l' :: 'r' :: 'e' :: 'a' :: 'd' :: 'y' :: ' ' :: 'l' :: 'a' :: 'u' :: 'n' :: 'c' :: 'h' :: 'e' :: 'd' :: '!' :: []),
     st, [])
  else
    (Except.ok (),
     { st with testerNode := some pid },
     Effect.startDB (pjoin st.rootFolder ('c' :: 'o' :: 'n' :: 'f' :: []))
       :: Effect.mkdir (pjoin st.rootFolder ('n' :: 'o' :: 'd' :: 'e' :: 's' :: []))
       :: ((st.domainConfigs.map Prod.snd).flatMap buildDomainConfiguration
         ++ [Effect.spawn ('n' :: 'o' :: 'd' :: 'e' :: [])
              [('.' :: '/' :: '.' :: '.' :: '/' :: '.' :: '.' :: '/' :: '.' :: '.' :: '/' :: 'e' :: 'n' :: 'g' :: 'i' :: 'n' :: 'e' :: '/' :: 'l' :: 'a' :: 'u' :: 'n' :: 'c' :: 'h' :: 'e' :: 'r' :: []),
               pjoin st.rootFolder ('c' :: 'o' :: 'n' :: 'f' :: []),
               st.rootFolder]]))

/-- The deferred cleanup `tearDown` schedules (it runs 100ms later): the
`rmDeep` call is wrapped in `try/catch`, so whether or not removal fails
(`rmFails`) the callback completes without raising, then exits the test
process when an exit status was supplied.  The `Except` result makes
"never throws" a statement rather than a typing accident. -/
def tearDownDeferred (root : JStr) (exitStatus : Option Int) (rmFails : Bool) :
    Except JStr (List Effect) :=
  Except.ok ((if rmFails then [] else [Effect.rmTree root])
    ++ (match exitStatus with
        | some s => [Effect.exitProc s]
        | none => []))

/-- `tearDown` (tir.js lines 250-271), synchronous part.  When a process is
tracked, `process.kill(pid)` is issued with no surrounding `try/catch`;
Node's `process.kill` throws `ESRCH` when no live process has that id
(`alive` models which ids the OS can still signal), and in that case the
throw propagates out of `tearDown` before `testerNode` is cleared.
Otherwise the tracked id is cleared and the deferred cleanup above is
scheduled. -/
def tearDown (alive : Nat → Bool) (st : TirState) (exitStatus : Option Int) :
    Except JStr (TirState × List Effect × (Bool → Except JStr (List Effect))) :=
  match st.testerNode with
  | none => Except.ok (st, [], tearDownDeferred st.rootFolder exitStatus)
  | some pid =>
    if alive pid then
      Except.ok ({ st with testerNode := none }, [Effect.kill pid],
        tearDownDeferred st.rootFolder exitStatus)
    else
      Except.error ('E' :: 'S' :: 'R' :: 'C' :: 'H' :: [])

theorem tearDown_none (alive : Nat → Bool) (st : TirState) (ex : Option Int)
    (h : st.testerNode = none) :
    tearDown alive st ex = Except.ok (st, [], tearDownDeferred st.rootFolder ex) := by
  unfold tearDown
  rw [h]

theorem tearDown_some_alive (alive : Nat → Bool) (st : TirState) (ex : Option Int) (pid : Nat)
    (h : st.testerNode = some pid) (ha : alive pid = true) :
    tearDown alive st ex =
      Except.ok ({ st with testerNode := none }, [Effect.kill pid],
        tearDownDeferred st.rootFolder ex) := by
  unfold tearDown
  rw [h]
  simp [ha]

theorem tearDown_some_dead (alive : Nat → Bool) (st : TirState) (ex : Option Int) (pid : Nat)
    (h : st.testerNode = some pid) (ha : alive pid = false) :
    tearDown alive st ex = Except.error ('E' :: 'S' :: 'R' :: 'C' :: 'H' :: []) := by
  unfold tearDown
  rw [h]
  simp [ha]

/- ### C3: a second `launch` fails with no side effects -/

/-- C3: calling `launch` a second time on a runner whose first `launch`
succeeded always throws "Test node already launched!", leaves the state
unchanged, and performs no side effects — its effect trace is empty, so no
second process is spawned, no directory is created and no ledger write
occurs. -/
theorem C3_launch_twice_fails (st st' : TirState) (pid pid' : Nat) (effs : List Effect)
    (h : launch st pid = (Except.ok (), st', effs)) :
    launch st' pid' =
      (Except.error ('T' :: 'e' :: 's' :: 't' :: ' ' :: 'n' :: 'o' :: 'd' :: 'e' :: ' ' :: 'a' :: 'l' :: 'r' :: 'e' :: 'a' :: 'd' :: 'y' :: ' ' :: 'l' :: 'a' :: 'u' :: 'n' :: 'c' :: 'h' :: 'e' :: 'd' :: '!' :: []),
       st', []) := by
  unfold launch at h
  split at h
  · exact absurd (congrArg Prod.fst h) (by simp)
  · have hst : st' = { st with testerNode := some pid } := by
      have h2 := congrArg (fun p => p.2.1) h
      exact h2.symm
    subst hst
    unfold launch
    rw [if_pos (by simp)]

/-- C3 witness: a fresh runner launches once, and the second `launch` then
fails with the already-launched error, unchanged state, and no effects. -/
theorem C3_witness :
    launch ⟨[], [], some 5⟩ 6 =
      (Except.error ('T' :: 'e' :: 's' :: 't' :: ' ' :: 'n' :: 'o' :: 'd' :: 'e' :: ' ' :: 'a' :: 'l' :: 'r' :: 'e' :: 'a' :: 'd' :: 'y' :: ' ' :: 'l' :: 'a' :: 'u' :: 'n' :: 'c' :: 'h' :: 'e' :: 'd' :: '!' :: []),
       (⟨[], [], some 5⟩ : TirState), []) :=
  C3_launch_twice_fails ⟨[], [], none⟩ ⟨[], [], some 5⟩ 5 6 _ rfl

/- ### C1: `tearDown` never throws -/

/-- C1 counterexample: with a tracked process that is already dead (the OS
will accept no signal for pid 42), `tearDown` raises: the `process.kill`
call has no surrounding `try/catch`, so the ESRCH error propagates — the
claim that `tearDown` completes without raising in every runner state is
false. -/
theorem C1_counterexample :
    tearDown (fun _ => false) ⟨[], [], some 42⟩ none =
      Except.error ('E' :: 'S' :: 'R' :: 'C' :: 'H' :: []) := rfl

/-- C1 (amended): `tearDown` completes without raising whenever no process
is tracked or the tracked process is still alive, and the deferred
filesystem cleanup never raises — removal failure is swallowed by the
`try/catch` — but a signal sent to an already-dead tracked process is not
swallowed: only the `rmDeep` call is guarded, not the `process.kill`. -/
theorem C1_tearDown_no_throw (alive : Nat → Bool) (st : TirState) (ex : Option Int)
    (h : st.testerNode = none ∨ ∃ pid, st.testerNode = some pid ∧ alive pid = true) :
    (tearDown alive st ex).isOk = true ∧
      ∀ root ex2 rmFails, (tearDownDeferred root ex2 rmFails).isOk = true := by
  refine ⟨?_, fun root ex2 rmFails => rfl⟩
  rcases h with h | ⟨pid, hpid, halive⟩
  · rw [tearDown_none alive st ex h]
    rfl
  · rw [tearDown_some_alive alive st ex pid hpid halive]
    rfl

/-- C1 witness: teardown of a runner whose tracked process is alive
completes, and the deferred cleanup never raises. -/
theorem C1_witness :
    (tearDown (fun _ => true) ⟨[], [], some 3⟩ (some 0)).isOk = true ∧
      ∀ root ex2 rmFails, (tearDownDeferred root ex2 rmFails).isOk = true :=
  C1_tearDown_no_throw (fun _ => true) ⟨[], [], some 3⟩ (some 0) (Or.inr ⟨3, rfl, rfl⟩)

/- ### C9: `tearDown` clears the tracked process before its deferred cleanup -/

/-- C9: a completed (non-throwing) `tearDown` has already cleared the
tracked process in its synchronous part — the state it returns (the state
in which the deferred filesystem cleanup later runs) tracks no process —
so a subsequent `launch` on the same instance passes the already-launched
guard and succeeds instead of throwing. -/
theorem C9_tearDown_clears_process (alive : Nat → Bool) (st st' : TirState) (ex : Option Int)
    (effs : List Effect) (deferred : Bool → Except JStr (List Effect)) (pid : Nat)
    (h : tearDown alive st ex = Except.ok (st', effs, deferred)) :
    st'.testerNode = none ∧ (launch st' pid).1 = Except.ok () := by
  have hnone : st'.testerNode = none := by
    cases hs : st.testerNode with
    | none =>
      rw [tearDown_none alive st ex hs] at h
      injection h with h1
      have h2 : st = st' := congrArg Prod.fst h1
      rw [← h2, hs]
    | some pid0 =>
      cases ha : alive pid0 with
      | true =>
        rw [tearDown_some_alive alive st ex pid0 hs ha] at h
        injection h with h1
        have h2 : ({ st with testerNode := none } : TirState) = st' := congrArg Prod.fst h1
        rw [← h2]
      | false =>
        rw [tearDown_some_dead alive st ex pid0 hs ha] at h
        exact Except.noConfusion h
  refine ⟨hnone, ?_⟩
  unfold launch
  rw [if_neg (by rw [hnone]; simp)]

/-- C9 witness: tearing down a live runner yields a state with no tracked
process, on which `launch` succeeds again. -/
theorem C9_witness :
    (⟨[], [], none⟩ : TirState).testerNode = none ∧
      (launch ⟨[], [], none⟩ 7).1 = Except.ok () :=
  C9_tearDown_clears_process (fun _ => true) ⟨[], [], some 3⟩ ⟨[], [], none⟩ none
    [Effect.kill 3] (tearDownDeferred [] none) 7 rfl

/- ### C6: one committed transaction per agent, in declaration order -/

/-- Is this effect an operation addressed to the per-domain ledger handler
rooted at `conf`? -/
def isHandlerOp (conf : JStr) : Effect → Bool
  | .dbBegin c => c == conf
  | .dbLookup c _ _ => c == conf
  | .dbAdd c _ _ => c == conf
  | .dbCommit c => c == conf
  | _ => false

/-- The sub-trace of operations on the per-domain handler at `conf`. -/
def opsOnHandler (conf : JStr) (effs : List Effect) : List Effect :=
  effs.filter (isHandlerOp conf)

/-- Is this effect a transaction commit on a per-domain handler? -/
def isCommit : Effect → Bool
  | .dbCommit _ => true
  | _ => false

theorem agentOps_all_handler (conf : JStr) (agents : List JStr) :
    ∀ e ∈ agentOps conf agents, isHandlerOp conf e = true := by
  intro e he
  rw [agentOps, List.mem_flatMap] at he
  rcases he with ⟨a, _, hmem⟩
  simp only [List.mem_cons, List.not_mem_nil, or_false] at hmem
  rcases hmem with h | h | h | h <;> subst h <;> simp [isHandlerOp]

theorem commits_agentOps (conf : JStr) (agents : List JStr) :
    ((agentOps conf agents).filter isCommit).length = agents.length := by
  induction agents with
  | nil => rfl
  | cons a rest ih => simp [agentOps, isCommit] at ih ⊢; exact ih

/-- C6: provisioning a domain whose descriptor lists `n` agents performs,
on the per-domain ledger handler (the one rooted at the descriptor's
`conf` path), exactly the trace `begin, lookup ("Agent", a), add, commit`
for each declared agent `a` in declaration order — so exactly `n`
registrations, each committed in its own transaction, not batched. -/
theorem C6_agent_registrations (dc : DomainConfig) :
    opsOnHandler dc.conf (buildDomainConfiguration dc) = agentOps dc.conf dc.agents ∧
      ((opsOnHandler dc.conf (buildDomainConfiguration dc)).filter isCommit).length =
        dc.agents.length := by
  have hmain : opsOnHandler dc.conf (buildDomainConfiguration dc) = agentOps dc.conf dc.agents := by
    unfold buildDomainConfiguration opsOnHandler
    cases hc : dc.constitution with
    | pathStr f =>
      cases ha : dc.agents with
      | nil => simp [isHandlerOp, agentOps]
      | cons a rest =>
        simp [isHandlerOp, List.filter_append]
        exact agentOps_all_handler dc.conf (a :: rest)
    | describer d =>
      cases ha : dc.agents with
      | nil => simp [isHandlerOp, agentOps]
      | cons a rest =>
        simp [isHandlerOp, List.filter_append]
        exact agentOps_all_handler dc.conf (a :: rest)
  refine ⟨hmain, ?_⟩
  rw [hmain]
  exact commits_agentOps dc.conf dc.agents

/- ### C4: the correlation token -/

/-- One base-36 digit as the character JS uses: `0`-`9` then `a`-`z`. -/
def digit36 (d : Fin 36) : Char :=
  if d.val < 10 then Char.ofNat (48 + d.val) else Char.ofNat (87 + d.val)

/-- `Math.random().toString(36)` for a value in `[0, 1)` whose canonical
base-36 fractional expansion is `ds` (no trailing zero digit; every JS
double is a dyadic rational, so the expansion is finite): `"0"` when the
value is zero, `"0." ++ digits` otherwise. -/
def randomToString36 (ds : List (Fin 36)) : JStr :=
  if ds.isEmpty then '0' :: [] else '0' :: '.' :: ds.map digit36

/-- The correlation token `Math.random().toString(36).substr(2, 9)`
(tir.js line 233): at most 9 characters starting at index 2. -/
def randToken (ds : List (Fin 36)) : JStr := ((randomToString36 ds).drop 2).take 9

/-- C4 counterexample: for the random outcome one half — whose base-36
expansion is the single digit 18, so `toString(36)` is `"0.i"` — the
token is `"i"`, of length 1: the claim that every token has at least 9
characters is false. -/
theorem C4_counterexample :
    randToken ((18 : Fin 36) :: []) = 'i' :: [] ∧
      ¬ 9 ≤ (randToken ((18 : Fin 36) :: [])).length := by
  constructor
  · decide
  · decide

/-- C4 (amended): every correlation token is alphanumeric, but its length
is `min d 9` where `d` is the number of base-36 fractional digits of the
random value: at most 9 — never more — and below 9 exactly when the
expansion is short (e.g. `Math.random()` returning 0.5 or 0), so the
claimed universal lower bound of 9 holds only when `d ≥ 9`. -/
theorem C4_token_alnum (ds : List (Fin 36)) :
    (randToken ds).length = min ds.length 9 ∧
      ∀ c ∈ randToken ds, c.isAlphanum = true := by
  have hd : ∀ d : Fin 36, (digit36 d).isAlphanum = true := by decide
  cases hds : ds.isEmpty
  · have hne : ¬ ds.isEmpty = true := by rw [hds]; exact Bool.false_ne_true
    constructor
    · unfold randToken randomToString36
      rw [if_neg hne]
      simp only [List.drop_succ_cons, List.drop_zero, List.length_take, List.length_map]
      omega
    · intro c hc
      unfold randToken randomToString36 at hc
      rw [if_neg hne] at hc
      have hc2 : c ∈ ds.map digit36 := List.take_subset 9 _ hc
      rcases List.mem_map.1 hc2 with ⟨d, _, hdc⟩
      rw [← hdc]
      exact hd d
  · have hnil : ds = [] := List.isEmpty_iff.1 hds
    subst hnil
    refine ⟨by decide, fun c hc => ?_⟩
    simp [randToken, randomToString36] at hc

/- ### C8: `interact` fails exactly on unknown domains -/

/-- The client-side handle returned by `interact`: the agent, the domain's
inbound path, and the freshly derived return channel. -/
structure InteractionHandle where
  agent : JStr
  inbound : JStr
  returnChannel : JStr

/-- `interact` (tir.js lines 229-243); `ds` is the random outcome consumed
for the correlation token.  Unknown domains fail with an error listing the
known domain names; otherwise the outbound directory is ensured
(tolerantly — an existing directory is not an error) and a handle is
returned whose return channel joins the fresh token onto the domain's
outbound path. -/
def interact (st : TirState) (domain agent : JStr) (ds : List (Fin 36)) :
    Except JStr (InteractionHandle × List Effect) :=
  match lookupDomain st domain with
  | none =>
    Except.error ("Could not find domain ".data ++ domain ++ " in ".data
      ++ List.intercalate (',' :: ' ' :: []) (knownDomains st))
  | some dc =>
    Except.ok (⟨agent, dc.inbound, pjoin dc.outbound (randToken ds)⟩,
      [Effect.mkdirTolerant dc.outbound])

theorem lookup_eq_none_iff (l : List (JStr × DomainConfig)) (d : JStr) :
    l.lookup d = none ↔ d ∉ l.map Prod.fst := by
  induction l with
  | nil => exact iff_of_true rfl (List.not_mem_nil d)
  | cons hd tl ih =>
    obtain ⟨k, v⟩ := hd
    by_cases h : d = k
    · subst h
      have hbeq : (d == d) = true := beq_self_eq_true d
      rw [List.lookup_cons, hbeq]
      exact iff_of_false (fun hx => Option.noConfusion hx)
        (fun hno => hno (List.mem_cons_self _ _))
    · have hbeq : (d == k) = false := beq_eq_false_iff_ne.2 h
      rw [List.lookup_cons, hbeq]
      show tl.lookup d = none ↔ d ∉ List.map Prod.fst ((k, v) :: tl)
      simp only [List.map_cons, List.mem_cons, not_or]
      rw [ih]
      exact ⟨fun hx => ⟨h, hx⟩, fun hx => hx.2⟩

theorem lookupDomain_eq_none_iff (st : TirState) (d : JStr) :
    lookupDomain st d = none ↔ d ∉ knownDomains st :=
  lookup_eq_none_iff st.domainConfigs d

/-- C8: `interact(domain, agent)` fails exactly when the domain is not
registered; the failing error names the unknown domain and lists the known
domain names; for a registered domain it returns a handle (whose return
channel lives under that domain's outbound path) and does not fail. -/
theorem C8_interact_domain_check (st : TirState) (domain agent : JStr) (ds : List (Fin 36)) :
    ((∃ e, interact st domain agent ds = Except.error e) ↔ domain ∉ knownDomains st) ∧
      (domain ∉ knownDomains st →
        interact st domain agent ds =
          Except.error ("Could not find domain ".data ++ domain ++ " in ".data
            ++ List.intercalate (',' :: ' ' :: []) (knownDomains st))) ∧
      (domain ∈ knownDomains st →
        ∃ dc, lookupDomain st domain = some dc ∧
          interact st domain agent ds =
            Except.ok (⟨agent, dc.inbound, pjoin dc.outbound (randToken ds)⟩,
              [Effect.mkdirTolerant dc.outbound])) := by
  cases hl : lookupDomain st domain with
  | none =>
    have hmsg : interact st domain agent ds =
        Except.error ("Could not find domain ".data ++ domain ++ " in ".data
          ++ List.intercalate (',' :: ' ' :: []) (knownDomains st)) := by
      unfold interact
      rw [hl]
    have hnotmem : domain ∉ knownDomains st := (lookupDomain_eq_none_iff st domain).1 hl
    exact ⟨iff_of_true ⟨_, hmsg⟩ hnotmem, fun _ => hmsg,
      fun hmem => absurd hmem hnotmem⟩
  | some dc =>
    have hok : interact st domain agent ds =
        Except.ok (⟨agent, dc.inbound, pjoin dc.outbound (randToken ds)⟩,
          [Effect.mkdirTolerant dc.outbound]) := by
      unfold interact
      rw [hl]
    have hmem : domain ∈ knownDomains st := by
      by_contra hcon
      have hnone := (lookupDomain_eq_none_iff st domain).2 hcon
      rw [hl] at hnone
      exact Option.noConfusion hnone
    refine ⟨iff_of_false ?_ (by simpa using hmem), fun hno => absurd hmem hno,
      fun _ => ⟨dc, rfl, hok⟩⟩
    rintro ⟨e, he⟩
    rw [hok] at he
    exact Except.noConfusion he

/-- C8 witness: on a runner knowing only domain `"d"`, `interact` with the
unknown `"x"` fails with the diagnostic error, and `interact` with `"d"`
returns a handle. -/
theorem C8_witness :
    (interact (addDomain ⟨[], [], none⟩ ('d' :: []) [] (Constitution.pathStr []))
        ('x' :: []) ('a' :: []) [] =
      Except.error ("Could not find domain ".data ++ ('x' :: []) ++ " in ".data
        ++ List.intercalate (',' :: ' ' :: [])
          (knownDomains (addDomain ⟨[], [], none⟩ ('d' :: []) [] (Constitution.pathStr []))))) ∧
      ∃ dc, lookupDomain (addDomain ⟨[], [], none⟩ ('d' :: []) [] (Constitution.pathStr []))
            ('d' :: []) = some dc ∧
          interact (addDomain ⟨[], [], none⟩ ('d' :: []) [] (Constitution.pathStr []))
              ('d' :: []) ('a' :: []) [] =
            Except.ok (⟨('a' :: []), dc.inbound, pjoin dc.outbound (randToken [])⟩,
              [Effect.mkdirTolerant dc.outbound]) := by
  have h1 := C8_interact_domain_check
    (addDomain ⟨[], [], none⟩ ('d' :: []) [] (Constitution.pathStr []))
    ('x' :: []) ('a' :: []) []
  have h2 := C8_interact_domain_check
    (addDomain ⟨[], [], none⟩ ('d' :: []) [] (Constitution.pathStr []))
    ('d' :: []) ('a' :: []) []
  exact ⟨h1.2.1 (by decide), h2.2.2 (by decide)⟩

/- ### C5: serialization of swarm describer properties -/

/-- JS `typeof v === 'function'`. -/
def isFn : JsVal → Bool
  | .fn _ => true
  | _ => false

mutual

theorem json_eq_specLiteral : ∀ v : JsVal, noFn v = true → jsonStringify v = some (specLiteral v)
  | .str _, _ => rfl
  | .num _, _ => rfl
  | .bool _, _ => rfl
  | .null, _ => rfl
  | .fn _, h => by simp [noFn] at h
  | .obj fs, h => by
    have hf := jsonParts_eq_specParts fs h
    simp only [jsonStringify, specLiteral, hf]

theorem jsonParts_eq_specParts : ∀ fs : JsFields, noFnF fs = true → jsonFieldParts fs = specFieldParts fs
  | .nil, _ => rfl
  | .cons k v rest, h => by
    have h1 : noFn v = true := (Bool.and_eq_true _ _ ▸ h).1
    have h2 : noFnF rest = true := (Bool.and_eq_true _ _ ▸ h).2
    have hv := json_eq_specLiteral v h1
    have hr := jsonParts_eq_specParts rest h2
    simp only [jsonFieldParts, specFieldParts, hv, hr]

end

/-- C5 counterexample: the claim says every non-function-valued property is
serialized as valid literal syntax for its value, but a string-valued
property (here `"hi"`) is serialized by `toString` as its raw unquoted
text, which differs from (and is not) the string literal. -/
theorem C5_counterexample :
    isFn (JsVal.str ('h' :: 'i' :: [])) = false ∧
      serializeProp (JsVal.str ('h' :: 'i' :: [])) ≠
        specLiteral (JsVal.str ('h' :: 'i' :: [])) ∧
      serializeProp (JsVal.str ('h' :: 'i' :: [])) = 'h' :: 'i' :: [] := by
  refine ⟨rfl, ?_, rfl⟩
  decide

/-- C5 (amended): `createConstitution` emits one registration call per
swarm (one line per describer entry); function-valued properties are
serialized as their literal source text; object-typed properties (JS
`typeof 'object'`, including `null`) are serialized as JSON structured
literals — valid literal syntax whenever the object holds no
function-valued field; number- and boolean-valued properties serialize to
their literals as well; but a string-valued property is serialized as its
raw unquoted text, not as a string literal. -/
theorem C5_constitution_serialization :
    (∀ (o : ConstOpts) (d : List (JStr × JsFields)),
        (d.map (fun p => swarmLine o p.1 p.2)).length = d.length) ∧
      (∀ s, serializeProp (JsVal.fn s) = s) ∧
      (∀ v, typeofObject v = true → noFn v = true → serializeProp v = specLiteral v) ∧
      (∀ n, serializeProp (JsVal.num n) = specLiteral (JsVal.num n)) ∧
      (∀ b, serializeProp (JsVal.bool b) = specLiteral (JsVal.bool b)) ∧
      (∀ s, serializeProp (JsVal.str s) = s) := by
  refine ⟨fun o d => List.length_map d _, fun s => rfl, ?_, fun n => rfl, fun b => rfl,
    fun s => rfl⟩
  intro v htype hnofn
  cases v with
  | null => rfl
  | obj fs =>
    have hj := json_eq_specLiteral (JsVal.obj fs) hnofn
    unfold serializeProp
    rw [if_pos (by rfl), hj]
    rfl
  | str s => exact absurd htype (by simp [typeofObject])
  | num n => exact absurd htype (by simp [typeofObject])
  | bool b => exact absurd htype (by simp [typeofObject])
  | fn s => exact absurd htype (by simp [typeofObject])

/-- C5 witness: an object-valued property with one numeric field and no
function fields is serialized exactly as its structured literal. -/
theorem C5_witness :
    typeofObject (JsVal.obj (JsFields.cons ('a' :: []) (JsVal.num 1) JsFields.nil)) = true ∧
      noFn (JsVal.obj (JsFields.cons ('a' :: []) (JsVal.num 1) JsFields.nil)) = true ∧
      serializeProp (JsVal.obj (JsFields.cons ('a' :: []) (JsVal.num 1) JsFields.nil)) =
        specLiteral (JsVal.obj (JsFields.cons ('a' :: []) (JsVal.num 1) JsFields.nil)) :=
  ⟨rfl, rfl,
    C5_constitution_serialization.2.2.1
      (JsVal.obj (JsFields.cons ('a' :: []) (JsVal.num 1) JsFields.nil)) rfl rfl⟩

/- ### C7: `rmDeep` (tir.js lines 65-77) -/

mutual

/-- One node of a filesystem tree: a plain file, or a directory with its
entries. -/
inductive FsNode where
  | file : FsNode
  | dir : FsForest → FsNode

/-- A directory listing: named children in listing order. -/
inductive FsForest where
  | nil : FsForest
  | cons : JStr → FsNode → FsForest → FsForest

end

/-- A deletion performed by `rmDeep`: `fs.unlinkSync` on a file path or
`fs.rmdirSync` on a directory path (paths as segment lists rooted at the
argument folder). -/
inductive FsOp where
  | unlink : List JStr → FsOp
  | rmdir : List JStr → FsOp

/-- The path an operation touches. -/
def opPath : FsOp → List JStr
  | .unlink p => p
  | .rmdir p => p

mutual

/-- The deletion trace of `rmDeep` on the node at path `p`: a directory
recurses into every entry (`readdirSync` order) and only then issues
`rmdirSync` on itself; a file is unlinked. -/
def rmOps (p : List JStr) : FsNode → List FsOp
  | .file => [.unlink p]
  | .dir f => rmOpsF p f ++ [.rmdir p]

/-- The concatenated traces of a directory's entries, in listing order. -/
def rmOpsF (p : List JStr) : FsForest → List FsOp
  | .nil => []
  | .cons name child rest => rmOps (p ++ [name]) child ++ rmOpsF p rest

end

/-- `rmDeep(folder)` where `folder` sits at path `p`: `none` models a
non-existent path — `fs.existsSync` is false and the call returns having
performed nothing; `some f` models an existing directory tree with
entries `f`. -/
def rmDeep (p : List JStr) : Option FsForest → List FsOp
  | none => []
  | some f => rmOpsF p f ++ [FsOp.rmdir p]

/-- The sibling names of a directory listing. -/
def fnames : FsForest → List JStr
  | .nil => []
  | .cons n _ rest => n :: fnames rest

mutual

/-- Well-formedness of a tree: sibling names are pairwise distinct at every
level, as the names in a real directory listing are. -/
def wfNode : FsNode → Bool
  | .file => true
  | .dir f => wfForest f

/-- Well-formedness of a listing. -/
def wfForest : FsForest → Bool
  | .nil => true
  | .cons n c rest => !((fnames rest).contains n) && wfNode c && wfForest rest

end

mutual

/-- The paths of all nodes of the tree, in post-order (children before
their directory). -/
def pathsN (p : List JStr) : FsNode → List (List JStr)
  | .file => [p]
  | .dir f => pathsF p f ++ [p]

/-- The paths of all nodes under a listing. -/
def pathsF (p : List JStr) : FsForest → List (List JStr)
  | .nil => []
  | .cons n c rest => pathsN (p ++ [n]) c ++ pathsF p rest

end

/-- `q` is a strict ancestor of `r`: `r` lies strictly below directory `q`. -/
def strictUnder (q r : List JStr) : Prop := r.take q.length = q ∧ q.length < r.length

mutual

theorem map_opPath_rmOps : ∀ (n : FsNode) (p : List JStr), (rmOps p n).map opPath = pathsN p n
  | .file, p => rfl
  | .dir f, p => by
    simp only [rmOps, pathsN, List.map_append, map_opPath_rmOpsF f p]
    rfl

theorem map_opPath_rmOpsF : ∀ (f : FsForest) (p : List JStr), (rmOpsF p f).map opPath = pathsF p f
  | .nil, _ => rfl
  | .cons n c rest, p => by
    simp only [rmOpsF, pathsF, List.map_append, map_opPath_rmOps c (p ++ [n]),
      map_opPath_rmOpsF rest p]

end

mutual

theorem rmOps_under : ∀ (n : FsNode) (p : List JStr) (op : FsOp), op ∈ rmOps p n →
    (opPath op).take p.length = p ∧ p.length ≤ (opPath op).length
  | .file, p, op, h => by
    simp only [rmOps, List.mem_singleton] at h
    subst h
    exact ⟨List.take_length p, Nat.le_refl _⟩
  | .dir f, p, op, h => by
    rw [rmOps, List.mem_append, List.mem_singleton] at h
    rcases h with h | h
    · rcases rmOpsF_under f p op h with ⟨name, _, htake, hlen⟩
      constructor
      · have h2 := congrArg (List.take p.length) htake
        rw [List.take_take, Nat.min_eq_left (Nat.le_succ p.length)] at h2
        rw [h2]
        exact List.take_left p [name]
      · omega
    · subst h
      exact ⟨List.take_length p, Nat.le_refl _⟩

theorem rmOpsF_under : ∀ (f : FsForest) (p : List JStr) (op : FsOp), op ∈ rmOpsF p f →
    ∃ name, name ∈ fnames f ∧ (opPath op).take (p.length + 1) = p ++ [name] ∧
      p.length + 1 ≤ (opPath op).length
  | .cons n c rest, p, op, h => by
    rw [rmOpsF, List.mem_append] at h
    rcases h with h | h
    · rcases rmOps_under c (p ++ [n]) op h with ⟨htake, hlen⟩
      rw [List.length_append, List.length_singleton] at htake hlen
      exact ⟨n, by rw [fnames]; exact List.mem_cons_self _ _, htake, hlen⟩
    · rcases rmOpsF_under rest p op h with ⟨name, hmem, htake, hlen⟩
      exact ⟨name, by rw [fnames]; exact List.mem_cons_of_mem _ hmem, htake, hlen⟩

end

mutual

theorem rmOps_no_after : ∀ (n : FsNode) (p : List JStr) (l₁ : List FsOp) (q : List JStr)
    (l₂ : List FsOp), wfNode n = true → rmOps p n = l₁ ++ FsOp.rmdir q :: l₂ →
    ∀ op ∈ l₂, ¬ strictUnder q (opPath op)
  | .file, p, l₁, q, l₂, _, h => by
    have hmem : FsOp.rmdir q ∈ ([FsOp.unlink p] : List FsOp) := by
      rw [rmOps] at h
      rw [h]
      exact List.mem_append_right _ (List.mem_cons_self _ _)
    simp at hmem
  | .dir f, p, l₁, q, l₂, hwf, h => by
    rw [rmOps] at h
    rcases List.append_eq_append_iff.1 h with ⟨a', _, ha2⟩ | ⟨c', hc1, hc2⟩
    · -- the tail `[rmdir p]` absorbs `rmdir q`, so nothing follows it
      have hlen := congrArg List.length ha2
      rw [List.length_singleton, List.length_append, List.length_cons] at hlen
      have hl2 : l₂ = [] := List.eq_nil_of_length_eq_zero (by omega)
      subst hl2
      intro op hop
      exact absurd hop (List.not_mem_nil op)
    · cases c' with
      | nil =>
        injection hc2 with _ hl2
        subst hl2
        intro op hop
        exact absurd hop (List.not_mem_nil op)
      | cons x c'' =>
        injection hc2 with hx hl2
        subst hx
        intro op hop
        rcases List.mem_append.1 (hl2 ▸ hop) with hop1 | hop2
        · exact rmOpsF_no_after f p l₁ q c'' hwf hc1 op hop1
        · -- `op` is the final `rmdir p`; `q` is strictly longer than `p`
          rw [List.mem_singleton] at hop2
          subst hop2
          have hq : FsOp.rmdir q ∈ rmOpsF p f := by
            rw [hc1]
            exact List.mem_append_right _ (List.mem_cons_self _ _)
          rcases rmOpsF_under f p _ hq with ⟨name, _, _, hlen⟩
          rintro ⟨_, hl⟩
          simp only [opPath] at hl hlen
          omega

theorem rmOpsF_no_after : ∀ (f : FsForest) (p : List JStr) (l₁ : List FsOp) (q : List JStr)
    (l₂ : List FsOp), wfForest f = true → rmOpsF p f = l₁ ++ FsOp.rmdir q :: l₂ →
    ∀ op ∈ l₂, ¬ strictUnder q (opPath op)
  | .nil, p, l₁, q, l₂, _, h => by
    have hmem : FsOp.rmdir q ∈ ([] : List FsOp) := by
      rw [rmOpsF] at h
      rw [h]
      exact List.mem_append_right _ (List.mem_cons_self _ _)
    simp at hmem
  | .cons name child rest, p, l₁, q, l₂, hwf, h => by
    have hwf2 : (!((fnames rest).contains name) && wfNode child && wfForest rest) = true := hwf
    simp only [Bool.and_eq_true, Bool.not_eq_true'] at hwf2
    obtain ⟨⟨hcont, hc⟩, hr⟩ := hwf2
    have hnmem : name ∉ fnames rest := by
      simp at hcont
      exact hcont
    rw [rmOpsF] at h
    rcases List.append_eq_append_iff.1 h with ⟨a', _, ha2⟩ | ⟨c', hc1, hc2⟩
    · exact rmOpsF_no_after rest p a' q l₂ hr ha2
    · cases c' with
      | nil =>
        exact rmOpsF_no_after rest p [] q l₂ hr (by simpa using hc2.symm)
      | cons x c'' =>
        injection hc2 with hx hl2
        subst hx
        intro op hop
        rcases List.mem_append.1 (hl2 ▸ hop) with hop1 | hop2
        · exact rmOps_no_after child (p ++ [name]) l₁ q c'' hc hc1 op hop1
        · -- `op` belongs to a later sibling's trace; distinct sibling
          -- names forbid it from lying under `q`
          have hq : FsOp.rmdir q ∈ rmOps (p ++ [name]) child := by
            rw [hc1]
            exact List.mem_append_right _ (List.mem_cons_self _ _)
          obtain ⟨hqt, hql⟩ := rmOps_under child (p ++ [name]) _ hq
          rw [List.length_append, List.length_singleton] at hqt hql
          simp only [opPath] at hqt hql
          rcases rmOpsF_under rest p op hop2 with ⟨name2, hmem2, htake2, _⟩
          rintro ⟨ht, _⟩
          have h6 := congrArg (List.take (p.length + 1)) ht
          rw [List.take_take, Nat.min_eq_left hql] at h6
          rw [htake2, hqt] at h6
          have : name2 = name := by
            have := List.append_cancel_left h6
            injection this
          exact hnmem (this ▸ hmem2)

end

/-- C7: `rmDeep` on a non-existent path returns without performing any
operation; on an existing tree its trace visits exactly the nodes of the
tree in post-order (each child before its directory), and — for a
well-formed tree (distinct sibling names) — whenever `rmdirSync q` is
issued, no later operation touches anything strictly below `q` and every
tree node strictly below `q` was already removed by an earlier operation:
a directory is removed only once it is empty. -/
theorem C7_rmDeep_depth_first (p : List JStr) :
    rmDeep p none = [] ∧
      (∀ f, (rmDeep p (some f)).map opPath = pathsF p f ++ [p]) ∧
      (∀ f, wfForest f = true → ∀ l₁ q l₂,
        rmDeep p (some f) = l₁ ++ FsOp.rmdir q :: l₂ →
        (∀ op ∈ l₂, ¬ strictUnder q (opPath op)) ∧
          (∀ r ∈ pathsF p f, strictUnder q r → ∃ op ∈ l₁, opPath op = r)) := by
  refine ⟨rfl, ?_, ?_⟩
  · intro f
    show (rmOpsF p f ++ [FsOp.rmdir p]).map opPath = pathsF p f ++ [p]
    rw [List.map_append, map_opPath_rmOpsF f p]
    rfl
  · intro f hwf l₁ q l₂ h
    have horder : ∀ op ∈ l₂, ¬ strictUnder q (opPath op) :=
      rmOps_no_after (FsNode.dir f) p l₁ q l₂ hwf h
    refine ⟨horder, ?_⟩
    intro r hr hsu
    have hrmem : r ∈ (rmDeep p (some f)).map opPath := by
      show r ∈ (rmOpsF p f ++ [FsOp.rmdir p]).map opPath
      rw [List.map_append, map_opPath_rmOpsF f p]
      exact List.mem_append_left _ hr
    rcases List.mem_map.1 hrmem with ⟨op, hopmem, hoppath⟩
    rw [h] at hopmem
    rcases List.mem_append.1 hopmem with hop1 | hop2
    · exact ⟨op, hop1, hoppath⟩
    · rcases List.mem_cons.1 hop2 with hopq | hoptail
      · subst hopq
        simp only [opPath] at hoppath
        subst hoppath
        obtain ⟨_, hlt⟩ := hsu
        omega
      · exact absurd (hoppath ▸ hsu) (horder op hoptail)

/-- C7 witness: on the well-formed tree `a/b`, `c` rooted at the argument
folder, the trace is `unlink a/b, rmdir a, unlink c, rmdir .`; after
`rmdir a` no operation touches anything under `a`, and `a/b` (the only
node strictly under `a`) was removed before. -/
theorem C7_witness :
    (∀ op ∈ [FsOp.unlink [('c' :: [])], FsOp.rmdir ([] : List JStr)],
        ¬ strictUnder [('a' :: [])] (opPath op)) ∧
      (∀ r ∈ pathsF []
          (FsForest.cons ('a' :: [])
            (FsNode.dir (FsForest.cons ('b' :: []) FsNode.file FsForest.nil))
            (FsForest.cons ('c' :: []) FsNode.file FsForest.nil)),
        strictUnder [('a' :: [])] r →
          ∃ op ∈ [FsOp.unlink [('a' :: []), ('b' :: [])]], opPath op = r) :=
  (C7_rmDeep_depth_first []).2.2
    (FsForest.cons ('a' :: [])
      (FsNode.dir (FsForest.cons ('b' :: []) FsNode.file FsForest.nil))
      (FsForest.cons ('c' :: []) FsNode.file FsForest.nil))
    (by decide)
    [FsOp.unlink [('a' :: []), ('b' :: [])]] [('a' :: [])]
    [FsOp.unlink [('c' :: [])], FsOp.rmdir ([] : List JStr)] rfl
